import Mathlib

/-!
Verification development for the rogue_forest game engine (src/main.rs).

The Rust source is shallowly embedded below.  Conventions used throughout:

* `Vec<T>` becomes `List T`; `self.v[i]` (which panics when out of range)
  becomes `List.getD i dflt`, and each use states or proves the in-bounds
  side condition separately where it matters.
* `u32` counters (`age`, `size`, `round`) are `Nat` with an explicit
  `% 2^32` at every increment, mirroring wrapping arithmetic.
* `f32` quantities (`points`, `points_per_size`, `chance`, the random draw)
  are modelled as exact rationals `ℚ`.
* the process-wide `width()`/`height()` globals become explicit `W H : Nat`
  parameters, fixed for a session.
* `rand::random::<f32>()` draws are threaded explicitly: every operation
  that may call the RNG receives the list of raw draws (each in `[0,1)`)
  it will consume, one per maturity event.
-/

namespace RogueForest

/-- Wrap-around modulus of the Rust `u32` fields. -/
def u32Mod : Nat := 4294967296

/-- One weighted drop-table entry (`struct Drop` in the source):
a weight `chance` and the list of species names it produces. -/
structure Drop where
  chance : ℚ
  plants : List String
deriving DecidableEq

/-- A plant species / instance (`struct Plant`).  The source makes no
type-level distinction between a species definition and a placed instance;
`age` and `size` are mutable state of the copy at hand. -/
structure Plant where
  max_age : Nat
  age : Nat
  size_per_turn : Nat
  size : Nat
  points_per_size : ℚ
  class_ : Char
  name : String
  short_display : Char
  drops : List Drop
deriving DecidableEq

/-- Board cell (`enum Tile`): `Empty`, `New` (just placed this round,
the spec's `JustPlaced`) or `Permanent` (the spec's `Growing`). -/
inductive Tile where
  | Empty : Tile
  | New : Plant → Tile
  | Permanent : Plant → Tile
deriving DecidableEq

/-- Interaction mode (`enum State`). -/
inductive State where
  | Choosing : State
  | Placing : State
  | NextRound : State
deriving DecidableEq

/-- Hand-selection state (`struct ChoosingState`). -/
structure ChoosingState where
  index : Option Nat
  choice : Option Plant
deriving DecidableEq

/-- Board-cursor state (`struct PlacingState`). -/
structure PlacingState where
  x : Nat
  y : Nat
deriving DecidableEq

/-- `ChoosingState::on_down`: advance the selection with wraparound
(`(index + 1).rem_euclid(len)` on `usize`). -/
def ChoosingState.on_down (s : ChoosingState) (len : Nat) : ChoosingState :=
  if len = 0 then s
  else
    match s.index with
    | some index => { s with index := some ((index + 1) % len) }
    | none => { s with index := some 0 }

/-- `ChoosingState::on_up`: move the selection backwards with wraparound
(`(index as i32 - 1).rem_euclid(len as i32)`; the casts are modelled as
exact integers, faithful for any session whose hand fits in an `i32`). -/
def ChoosingState.on_up (s : ChoosingState) (len : Nat) : ChoosingState :=
  if len = 0 then s
  else
    match s.index with
    | some index => { s with index := some ((((index : Int) - 1) % (len : Int)).toNat) }
    | none => { s with index := some 0 }

/-- `PlacingState::on_up`: `self.y = (self.y + 1).clamp(0, height()-1)`. -/
def PlacingState.on_up (s : PlacingState) (H : Nat) : PlacingState :=
  { s with y := min (s.y + 1) (H - 1) }

/-- `PlacingState::on_down`: `(self.y as i64 - 1).clamp(0, height()-1)`. -/
def PlacingState.on_down (s : PlacingState) (H : Nat) : PlacingState :=
  { s with y := (min (max ((s.y : Int) - 1) 0) ((H : Int) - 1)).toNat }

/-- `PlacingState::on_right`: `self.x = (self.x + 1).clamp(0, width()-1)`. -/
def PlacingState.on_right (s : PlacingState) (W : Nat) : PlacingState :=
  { s with x := min (s.x + 1) (W - 1) }

/-- `PlacingState::on_left`: `(self.x as i64 - 1).clamp(0, width()-1)`. -/
def PlacingState.on_left (s : PlacingState) (W : Nat) : PlacingState :=
  { s with x := (min (max ((s.x : Int) - 1) 0) ((W : Int) - 1)).toNat }

/-- The whole session state (`struct Game`). -/
structure Game where
  state : State
  tile : List Tile
  hand : List Plant
  all_plants : List Plant
  name_to_plant : List (String × Plant)
  points : ℚ
  round : Nat
  placing : PlacingState
  choosing : ChoosingState
deriving DecidableEq

/-- The "Grass" species hard-coded in `Game::empty`. -/
def grass : Plant :=
  { max_age := 2, age := 0, size_per_turn := 1, size := 0, points_per_size := 1,
    class_ := 's', name := "Grass", short_display := 'w',
    drops := [⟨1, ["Grass", "Grass"]⟩, ⟨1, ["Grass", "Tall Grass"]⟩] }

/-- The "Tall Grass" species hard-coded in `Game::empty`. -/
def tall_grass : Plant :=
  { max_age := 4, age := 0, size_per_turn := 1, size := 0, points_per_size := 1,
    class_ := 's', name := "Tall Grass", short_display := 'W',
    drops := [⟨5, ["Tall Grass", "Tall Grass"]⟩, ⟨1, ["Tall Grass", "Shrub"]⟩] }

/-- The "Shrub" species hard-coded in `Game::empty`. -/
def shrub : Plant :=
  { max_age := 7, age := 0, size_per_turn := 1, size := 0, points_per_size := 1,
    class_ := 'S', name := "Shrub", short_display := 'Y',
    drops := [⟨5, ["Shrub", "Shrub"]⟩] }

/-- The `all_plants` vector built in `Game::empty`. -/
def base_plants : List Plant := [grass, tall_grass, shrub]

/-- The `name_to_plant` map of `Game::empty`, as an association list
(the `HashMap` has exactly these three distinct keys, so lookup agrees). -/
def base_catalog : List (String × Plant) :=
  [("Grass", grass), ("Tall Grass", tall_grass), ("Shrub", shrub)]

/-- `xy_idx`: row-major linear index `y * width + x`. -/
def xy_idx (W : Nat) (x y : Nat) : Nat := y * W + x

/-- `Game::empty`: the initial session state.  The cursor position models
`(width as f64 / 2.0).round()`, which equals `(W + 1) / 2` in `Nat`
division (round-half-away-from-zero on exact halves). -/
def Game.empty (W H : Nat) : Game :=
  { state := State.Choosing,
    tile := List.replicate (W * H) Tile.Empty,
    hand := [grass, grass],
    all_plants := base_plants,
    name_to_plant := base_catalog,
    points := 0,
    round := 0,
    placing := { x := (W + 1) / 2, y := (H + 1) / 2 },
    choosing := { index := some 0, choice := none } }

/-- Placeholder value standing for the spot where the Rust source would
panic on an out-of-range `Vec` index; no verified flow ever reads it. -/
def Plant.dummy : Plant :=
  { max_age := 0, age := 0, size_per_turn := 0, size := 0, points_per_size := 0,
    class_ := ' ', name := "", short_display := ' ', drops := [] }

/-- `Game::selected_plant`. -/
def selected_plant (g : Game) : Option Plant :=
  if g.hand.length = 0 then none
  else g.choosing.index.map (fun idx => g.hand.getD idx Plant.dummy)

/-- `Game::can_place_plant`: true iff the cursor cell is `Empty`.  The
source reads `self.tile[idx]` (a panic when the index is out of range,
which only arises in the corrupted states produced by the `on_delete`
bug); `getD` returns `Empty` there instead. -/
def can_place_plant (W : Nat) (g : Game) (x y : Nat) : Bool :=
  match g.tile.getD (xy_idx W x y) Tile.Empty with
  | Tile.Empty => true
  | _ => false

/-- `Game::place_plant`: `self.tile[xy_idx(x,y)] = Tile::New(plant)`.
No occupancy or bounds check whatsoever; the source panics when the
linear index is out of range (`List.set` is a no-op there, and every
theorem about placement carries the in-bounds hypothesis). -/
def place_plant (W : Nat) (g : Game) (x y : Nat) (plant : Plant) : Game :=
  { g with tile := g.tile.set (xy_idx W x y) (Tile.New plant) }

/-- The free function `take`: `Vec::swap_remove` guarded by a bounds
check.  Returns the removed element and the shrunken vector (the last
element moves into the vacated slot). -/
def take (vec : List Tile) (index : Nat) : Option Tile × List Tile :=
  if index < vec.length then
    (some (vec.getD index Tile.Empty),
      (vec.set index (vec.getD (vec.length - 1) Tile.Empty)).dropLast)
  else (none, vec)

/-- `Game::on_delete`: if the cursor cell is `Tile::New`, push the plant
back onto the hand, write `Empty` into the cell — and then (the bug) call
`take`, which swap-removes that slot from the tile vector itself. -/
def on_delete (W : Nat) (g : Game) : Game :=
  let idx := xy_idx W g.placing.x g.placing.y
  match g.tile.getD idx Tile.Empty with
  | Tile.New plant =>
      let hand1 := g.hand ++ [plant]
      let tile1 := g.tile.set idx Tile.Empty
      { g with hand := hand1, tile := (take tile1 idx).2 }
  | _ => g

/-- `Game::on_tab`: the manual mode cycle. -/
def on_tab (g : Game) : Game :=
  match g.state with
  | State.Choosing => { g with state := State.NextRound }
  | State.Placing => { g with state := State.Choosing }
  | State.NextRound => { g with state := State.Placing }

/-- Sum of all drop-table weights (`plant.drops.iter().map(|p| p.chance).sum()`). -/
def total_chance (p : Plant) : ℚ := (p.drops.map (fun d => d.chance)).sum

/-- Resolution of a selected drop entry: look every produced name up in the
catalog and clone it.  The source panics on a missing name; `filterMap`
skips it instead — the difference is never exercised, since every claim
either uses the complete built-in catalog or never selects an entry. -/
def resolve_drop (m : List (String × Plant)) (d : Drop) : List Plant :=
  d.plants.filterMap (fun plant_name => m.lookup plant_name)

/-- The accumulation loop of `get_drops`: walk the table with a running
sum, selecting the first entry with `rnd > running && rnd <= running + chance`. -/
def get_drops_loop (m : List (String × Plant)) (rnd running : ℚ) :
    List Drop → Option (List Plant)
  | [] => none
  | d :: rest =>
      if running < rnd ∧ rnd ≤ running + d.chance then some (resolve_drop m d)
      else get_drops_loop m rnd (running + d.chance) rest

/-- `get_drops`: draws `u` uniform in `[0,1)`, scales it by the summed
weights (`rnd = rand::random::<f32>() * sum`) and walks the table. -/
def get_drops (plant : Plant) (m : List (String × Plant)) (u : ℚ) :
    Option (List Plant) :=
  get_drops_loop m (u * total_chance plant) 0 plant.drops

/-- Wrapping `u32` increment of a plant's `age` and `size`
(`p.age += 1; p.size += p.size_per_turn;`). -/
def age_plant (p : Plant) : Plant :=
  { p with age := (p.age + 1) % u32Mod,
           size := (p.size + p.size_per_turn) % u32Mod }

/-- State threaded through the cell loop of `Game::update_game`:
the tile vector, the hand, the score, and the unconsumed RNG draws. -/
structure TickAcc where
  tiles : List Tile
  hand : List Plant
  points : ℚ
  us : List ℚ
deriving DecidableEq

/-- One iteration of the cell loop in `Game::update_game`, at linear
index `idx`: a `New` tile is first rewritten to `Permanent`, and the
(possibly just-rewritten) `Permanent` tile is then aged in the same
iteration; on maturity the score is bumped, one RNG draw is consumed for
the drop roll, any drops are appended to the hand and the cell cleared. -/
def tickIdx (m : List (String × Plant)) (acc : TickAcc) (idx : Nat) : TickAcc :=
  let tiles1 :=
    match acc.tiles.getD idx Tile.Empty with
    | Tile.New p => acc.tiles.set idx (Tile.Permanent p)
    | _ => acc.tiles
  match tiles1.getD idx Tile.Empty with
  | Tile.Permanent p =>
      let p' := age_plant p
      if p'.max_age ≤ p'.age then
        let inc := (p'.size : ℚ) * p'.points_per_size
        let hand1 :=
          match get_drops p' m (acc.us.headD 0) with
          | some ds => acc.hand ++ ds
          | none => acc.hand
        { tiles := tiles1.set idx Tile.Empty, hand := hand1,
          points := acc.points + inc, us := acc.us.tail }
      else { acc with tiles := tiles1.set idx (Tile.Permanent p') }
  | _ => { acc with tiles := tiles1 }

/-- `Game::update_game` (the spec's `advance_round`): process every cell
in row-major order (`for y { for x { idx = xy_idx(x,y); ... } }`, i.e.
linear indices `0, 1, …, W*H - 1`), then increment the round counter. -/
def update_game (W H : Nat) (g : Game) (us : List ℚ) : Game :=
  let acc := (List.range (W * H)).foldl (tickIdx g.name_to_plant)
    { tiles := g.tile, hand := g.hand, points := g.points, us := us }
  { g with tile := acc.tiles, hand := acc.hand, points := acc.points,
           round := (g.round + 1) % u32Mod }

/-- `Game::next_round` simply delegates to `update_game`. -/
def next_round (W H : Nat) (g : Game) (us : List ℚ) : Game :=
  update_game W H g us

/-- `Game::on_space` (the Confirm command).  An empty hand short-circuits
to a no-op in every mode (the `update_game` call there is commented out
in the source).  In `Placing`, `choice.take()` and `index.take()` are
modelled by writing the post-`take` values into the result. -/
def on_space (W H : Nat) (g : Game) (us : List ℚ) : Game :=
  if g.hand.length = 0 then g
  else
    match g.state with
    | State.Choosing =>
        { g with
          choosing :=
            { g.choosing with
              choice := g.choosing.index.map (fun idx => g.hand.getD idx Plant.dummy) },
          state := State.Placing }
    | State.Placing =>
        if can_place_plant W g g.placing.x g.placing.y = true then
          match g.choosing.choice with
          | some plant =>
              let g1 := place_plant W g g.placing.x g.placing.y plant
              match g.choosing.index with
              | some idx =>
                  { g1 with
                    hand := g1.hand.eraseIdx idx,
                    choosing :=
                      { index := some (if 0 < idx then idx - 1 else idx),
                        choice := none },
                    state := State.Choosing }
              | none => { g1 with choosing := { index := none, choice := none } }
          | none => { g with choosing := { g.choosing with choice := none } }
        else g
    | State.NextRound => next_round W H g us

/-- Abstract command vocabulary, one constructor per key the `run_app`
loop feeds into the engine (Esc only ends the session and is omitted).
Commands that can reach `update_game` carry the RNG draws it consumes. -/
inductive Cmd where
  | tab : Cmd
  | enter : List ℚ → Cmd
  | keyDown : Cmd
  | keyUp : Cmd
  | keyLeft : Cmd
  | keyRight : Cmd
  | space : List ℚ → Cmd
  | del : Cmd
  | charW : Cmd
  | charS : Cmd
  | charA : Cmd
  | charD : Cmd

/-- The per-key dispatch of `run_app`: Tab and Enter act in every mode,
the remaining keys are routed by the current mode exactly as in the
source's nested `match`. -/
def dispatch (W H : Nat) (g : Game) (c : Cmd) : Game :=
  match c with
  | Cmd.tab => on_tab g
  | Cmd.enter us => next_round W H g us
  | Cmd.keyDown =>
      match g.state with
      | State.Choosing => { g with choosing := g.choosing.on_down g.hand.length }
      | State.Placing => { g with placing := g.placing.on_down H }
      | State.NextRound => g
  | Cmd.keyUp =>
      match g.state with
      | State.Choosing => { g with choosing := g.choosing.on_up g.hand.length }
      | State.Placing => { g with placing := g.placing.on_up H }
      | State.NextRound => g
  | Cmd.keyLeft =>
      match g.state with
      | State.Placing => { g with placing := g.placing.on_left W }
      | _ => g
  | Cmd.keyRight =>
      match g.state with
      | State.Placing => { g with placing := g.placing.on_right W }
      | _ => g
  | Cmd.space us => on_space W H g us
  | Cmd.del =>
      match g.state with
      | State.Placing => on_delete W g
      | _ => g
  | Cmd.charW =>
      match g.state with
      | State.Placing => { g with placing := g.placing.on_up H }
      | _ => g
  | Cmd.charS =>
      match g.state with
      | State.Placing => { g with placing := g.placing.on_down H }
      | _ => g
  | Cmd.charA =>
      match g.state with
      | State.Placing => { g with placing := g.placing.on_left W }
      | _ => g
  | Cmd.charD =>
      match g.state with
      | State.Placing => { g with placing := g.placing.on_right W }
      | _ => g

/-- Session states reachable from `Game::empty` under any command sequence. -/
inductive Reachable (W H : Nat) : Game → Prop where
  | init : Reachable W H (Game.empty W H)
  | step : ∀ {g : Game} (c : Cmd), Reachable W H g → Reachable W H (dispatch W H g c)

/-- Iterated round advance: one `update_game` per element of `uss`,
each with its own RNG draw list. -/
def apply_rounds (W H : Nat) (g : Game) (uss : List (List ℚ)) : Game :=
  uss.foldl (fun h us => update_game W H h us) g

/-! ### List access helpers -/

theorem getD_set_self {α : Type} (l : List α) (i : Nat) (a d : α)
    (h : i < l.length) : (l.set i a).getD i d = a := by
  simp [List.getD_eq_getElem?_getD, List.getElem?_set_self h]

theorem getD_set_ne {α : Type} (l : List α) {i j : Nat} (h : i ≠ j)
    (a d : α) : (l.set i a).getD j d = l.getD j d := by
  simp [List.getD_eq_getElem?_getD, List.getElem?_set_ne h]

theorem getD_replicate {α : Type} (n j : Nat) (a : α) :
    (List.replicate n a).getD j a = a := by
  simp [List.getD_eq_getElem?_getD, List.getElem?_replicate]
  split <;> simp

theorem lt_length_of_getD_ne {α : Type} (l : List α) (i : Nat) (d : α)
    (h : l.getD i d ≠ d) : i < l.length := by
  by_contra hc
  exact h (List.getD_eq_default l d (le_of_not_lt hc))

/-- Arithmetic bridge for `on_up`: the `i32` `rem_euclid` decrement agrees
with adding `len - 1` modulo `len` in `Nat`. -/
theorem emod_sub_one_toNat (i len : Nat) (h : 0 < len) :
    ((((i : Int) - 1) % (len : Int)).toNat) = (i + (len - 1)) % len := by
  have h1 : ((i : Int) - 1) % (len : Int)
      = ((i : Int) + ((len : Int) - 1)) % (len : Int) := by
    have he : (i : Int) + ((len : Int) - 1) = ((i : Int) - 1) + (len : Int) * 1 := by
      ring
    rw [he, Int.add_mul_emod_self_left]
  have h2 : (i : Int) + ((len : Int) - 1) = ((i + (len - 1) : Nat) : Int) := by
    push_cast [Nat.cast_sub h]
    ring
  rw [h1, h2, ← Int.natCast_mod]
  exact Int.toNat_natCast _

/-! ### C3: Confirm with an empty hand -/

/-- C3 (amended): with an empty hand, a Confirm (`on_space`) is a complete
no-op in every mode — the `update_game` call is commented out in the
source, so no round advance happens and no mode change occurs. -/
theorem c3_empty_hand_confirm_noop (W H : Nat) (g : Game) (us : List ℚ)
    (h : g.hand = []) : on_space W H g us = g := by
  simp [on_space, h]

/-- Concrete Choosing-mode state with an empty hand. -/
def g_c3 : Game :=
  { state := State.Choosing, tile := [Tile.Empty], hand := [],
    all_plants := base_plants, name_to_plant := base_catalog,
    points := 0, round := 0, placing := ⟨0, 0⟩,
    choosing := { index := some 0, choice := none } }

/-- C3 counterexample: in Choosing mode with an empty hand, a Confirm
leaves the state completely unchanged; in particular the round counter is
NOT incremented, contradicting the claim that `advance_round` runs. -/
theorem c3_empty_hand_confirm_counterexample :
    on_space 1 1 g_c3 [] = g_c3 ∧
    (on_space 1 1 g_c3 []).round ≠ g_c3.round + 1 := by
  constructor
  · rfl
  · decide

/-- C3 witness: the amended no-op theorem applied at the concrete state. -/
theorem c3_empty_hand_confirm_noop_witness :
    on_space 2 2 g_c3 [1/2] = g_c3 :=
  c3_empty_hand_confirm_noop 2 2 g_c3 [1/2] rfl

/-! ### C9: hand-selection wraparound -/

/-- C9: `on_down`/`on_up` are no-ops when the hand is empty, and otherwise
cycle the selection through `0..len` with modulo wraparound (`on_up` adds
`len - 1` modulo `len`, so index `0` wraps to `len - 1`). -/
theorem c9_selection_wraparound (s : ChoosingState) (len : Nat) :
    (len = 0 → ChoosingState.on_down s len = s ∧ ChoosingState.on_up s len = s) ∧
    (∀ i, s.index = some i → 0 < len →
      (ChoosingState.on_down s len).index = some ((i + 1) % len) ∧
      (ChoosingState.on_up s len).index = some ((i + (len - 1)) % len)) := by
  constructor
  · intro h0
    simp [ChoosingState.on_down, ChoosingState.on_up, h0]
  · intro i hi hlen
    constructor
    · simp [ChoosingState.on_down, Nat.pos_iff_ne_zero.mp hlen, hi]
    · simp [ChoosingState.on_up, Nat.pos_iff_ne_zero.mp hlen, hi,
        emod_sub_one_toNat i len hlen]

/-- C9 witness: on a hand of length 3, `on_up` (select_prev) from index 0
wraps to index 2. -/
theorem c9_selection_wraparound_witness :
    (ChoosingState.on_up ⟨some 0, none⟩ 3).index = some ((0 + (3 - 1)) % 3) :=
  ((c9_selection_wraparound ⟨some 0, none⟩ 3).2 0 rfl (by decide)).2

/-! ### C2 and C7: the on_delete board-corruption bug -/

/-- A whole command sequence fed to the engine, one `dispatch` per key. -/
def run_cmds (W H : Nat) (g : Game) (cs : List Cmd) : Game :=
  cs.foldl (dispatch W H) g

theorem run_cmds_reachable (W H : Nat) :
    ∀ (cs : List Cmd) (g : Game), Reachable W H g →
      Reachable W H (run_cmds W H g cs)
  | [], _, h => h
  | c :: cs, g, h => run_cmds_reachable W H cs (dispatch W H g c) (Reachable.step c h)

/-- Keys from session start on a 2×2 board: Confirm (captures the selected
Grass), Confirm (places it at the initial cursor (1,1)), Tab twice
(Choosing → NextRound → Placing, cursor unchanged). -/
def c2_place_cmds : List Cmd := [Cmd.space [], Cmd.space [], Cmd.tab, Cmd.tab]

/-- The same prefix followed by Delete on the just-placed cell. -/
def c2_cmds : List Cmd := c2_place_cmds ++ [Cmd.del]

/-- C2 (code bug): a state reachable from `Game::empty` violates the
fixed-layout invariant.  After placing a Grass and cycling back to
Placing mode the tile vector still has length `2*2 = 4`, but the Delete
that follows swap-removes the cell slot from the tile vector itself
(`take` in `on_delete`), leaving a reachable session state whose board
has only 3 cells. -/
theorem c2_delete_shrinks_board :
    Reachable 2 2 (run_cmds 2 2 (Game.empty 2 2) c2_cmds) ∧
    (run_cmds 2 2 (Game.empty 2 2) c2_place_cmds).tile.length = 2 * 2 ∧
    (run_cmds 2 2 (Game.empty 2 2) c2_cmds).tile.length = 3 ∧
    (run_cmds 2 2 (Game.empty 2 2) c2_cmds).tile.length ≠ 2 * 2 := by
  refine ⟨run_cmds_reachable 2 2 c2_cmds (Game.empty 2 2) Reachable.init,
    ?_, ?_, ?_⟩ <;> decide

/-- Concrete 2×2 Placing-mode state: just-placed plant at (0,0), a
Growing occupant in the last cell (1,1). -/
def g_c7 : Game :=
  { state := State.Placing,
    tile := [Tile.New grass, Tile.Empty, Tile.Empty, Tile.Permanent shrub],
    hand := [], all_plants := base_plants, name_to_plant := base_catalog,
    points := 0, round := 0, placing := ⟨0, 0⟩,
    choosing := { index := some 0, choice := none } }

/-- C7 (code bug): Delete on a `JustPlaced` cell does append the instance
back to the hand, but the cell does not end up `Empty`: the trailing
`take` (`Vec::swap_remove`) moves the board's last tile into the deleted
slot, so (0,0) now holds the Growing shrub from (1,1). -/
theorem c7_delete_corrupts_cell :
    (on_delete 2 g_c7).hand = g_c7.hand ++ [grass] ∧
    (on_delete 2 g_c7).tile.getD 0 Tile.Empty = Tile.Permanent shrub ∧
    (on_delete 2 g_c7).tile.getD 0 Tile.Empty ≠ Tile.Empty := by
  decide

/-! ### C5: hand removal on confirmed placement -/

/-- Concrete Placing-mode state about to place the selected index-0 card
out of a three-card hand. -/
def g_c5 : Game :=
  { state := State.Placing, tile := [Tile.Empty],
    hand := [grass, tall_grass, shrub], all_plants := base_plants,
    name_to_plant := base_catalog, points := 0, round := 0,
    placing := ⟨0, 0⟩, choosing := { index := some 0, choice := some grass } }

/-- C5 counterexample: placing the selected index-0 card of the hand
`[grass, tall_grass, shrub]` leaves `[tall_grass, shrub]` — a stable
shift-remove (`Vec::remove`) — not the `[shrub, tall_grass]` that the
claimed swap-remove semantics would produce. -/
theorem c5_shift_remove_counterexample :
    (on_space 1 1 g_c5 []).hand = [tall_grass, shrub] ∧
    (on_space 1 1 g_c5 []).hand ≠ [shrub, tall_grass] := by
  decide

/-- C5 (amended): confirmed placement removes the selected card with
`Vec::remove` (stable shift-remove, order preserved), then the selection
index decrements by one unless it was already 0; it never becomes `None`
(after placing the last card it remains `Some 0` over the empty hand). -/
theorem c5_hand_removal_stable_order (W H : Nat) (g : Game) (us : List ℚ)
    (p : Plant) (i : Nat)
    (hs : g.state = State.Placing) (hc : g.choosing.choice = some p)
    (hi : g.choosing.index = some i) (hne : g.hand ≠ [])
    (hcp : can_place_plant W g g.placing.x g.placing.y = true) :
    (on_space W H g us).hand = g.hand.eraseIdx i ∧
    (on_space W H g us).choosing.index = some (if 0 < i then i - 1 else i) ∧
    (on_space W H g us).state = State.Choosing := by
  have h0 : ¬ g.hand.length = 0 := by
    simpa [List.length_eq_zero] using hne
  simp [on_space, h0, hs, hc, hi, hcp, place_plant]

/-- C5 witness: the amended removal behaviour at the concrete hand. -/
theorem c5_hand_removal_stable_order_witness :
    (on_space 1 1 g_c5 []).hand = g_c5.hand.eraseIdx 0 ∧
    (on_space 1 1 g_c5 []).choosing.index = some (if 0 < 0 then 0 - 1 else 0) ∧
    (on_space 1 1 g_c5 []).state = State.Choosing :=
  c5_hand_removal_stable_order 1 1 g_c5 [] grass 0 rfl rfl rfl
    (by decide) (by decide)

/-! ### C8: placement without the can_place pre-check -/

/-- Concrete 1×1 state whose only cell is occupied by a Growing shrub. -/
def g_c8 : Game :=
  { state := State.Placing, tile := [Tile.Permanent shrub],
    hand := [grass], all_plants := base_plants,
    name_to_plant := base_catalog, points := 0, round := 0,
    placing := ⟨0, 0⟩, choosing := { index := some 0, choice := none } }

/-- C8 counterexample: placing onto an occupied cell does not fail with
any typed `CellOccupied` error — `place_plant` silently overwrites the
occupant, changing the board. -/
theorem c8_occupied_overwrite_counterexample :
    can_place_plant 1 g_c8 0 0 = false ∧
    (place_plant 1 g_c8 0 0 grass).tile = [Tile.New grass] ∧
    (place_plant 1 g_c8 0 0 grass).tile ≠ g_c8.tile := by
  decide

/-- C8 (amended): `place_plant` performs no validity check and has no
typed error channel: even when `can_place_plant` is false it writes
`Tile::New(plant)` straight into linear slot `y*width+x` (length
preserved), silently replacing the occupant; out-of-range coordinates
panic on the raw index instead of returning `OutOfBounds`. -/
theorem c8_place_unchecked (W : Nat) (g : Game) (x y : Nat) (p : Plant)
    (hidx : xy_idx W x y < g.tile.length)
    (_hocc : can_place_plant W g x y = false) :
    (place_plant W g x y p).tile.getD (xy_idx W x y) Tile.Empty = Tile.New p ∧
    (place_plant W g x y p).tile.length = g.tile.length := by
  refine ⟨?_, by simp [place_plant]⟩
  exact getD_set_self g.tile (xy_idx W x y) (Tile.New p) Tile.Empty hidx

/-- C8 witness: the unchecked overwrite at the concrete occupied board. -/
theorem c8_place_unchecked_witness :
    (place_plant 1 g_c8 0 0 grass).tile.getD (xy_idx 1 0 0) Tile.Empty
      = Tile.New grass ∧
    (place_plant 1 g_c8 0 0 grass).tile.length = g_c8.tile.length :=
  c8_place_unchecked 1 g_c8 0 0 grass (by decide) (by decide)

/-! ### C6: drop resolution -/

/-- Modelled from the spec: "Walk the drop table accumulating a running
sum; the first entry whose cumulative sum satisfies
`running < r <= running+weight` is selected."  Declared only to be
compared against the source's `get_drops`. -/
def spec_first_drop (r running : ℚ) : List Drop → Option Drop
  | [] => none
  | d :: rest =>
      if running < r ∧ r ≤ running + d.chance then some d
      else spec_first_drop r (running + d.chance) rest

theorem get_drops_loop_eq_spec (m : List (String × Plant)) :
    ∀ (ds : List Drop) (rnd running : ℚ),
      get_drops_loop m rnd running ds
        = (spec_first_drop rnd running ds).map (resolve_drop m)
  | [], _, _ => rfl
  | d :: rest, rnd, running => by
      by_cases h : running < rnd ∧ rnd ≤ running + d.chance
      · simp [get_drops_loop, spec_first_drop, h]
      · simp [get_drops_loop, spec_first_drop, h,
          get_drops_loop_eq_spec m rest rnd (running + d.chance)]

theorem get_drops_loop_none_of_le (m : List (String × Plant)) :
    ∀ (ds : List Drop) (rnd running : ℚ), rnd ≤ running →
      (∀ d ∈ ds, 0 ≤ d.chance) → get_drops_loop m rnd running ds = none
  | [], _, _, _, _ => rfl
  | d :: rest, rnd, running, hle, hpos => by
      have hd : ¬ (running < rnd ∧ rnd ≤ running + d.chance) := by
        intro hcon
        exact absurd (lt_of_le_of_lt hle hcon.1) (lt_irrefl _)
      simp only [get_drops_loop, if_neg hd]
      refine get_drops_loop_none_of_le m rest rnd (running + d.chance) ?_ ?_
      · have := hpos d (by simp)
        linarith
      · intro d' hd'
        exact hpos d' (by simp [hd'])

/-- C6: `get_drops` selects exactly the first drop-table entry whose
half-open interval satisfies `running < r <= running+weight` (with
`r = u * total`), and deterministically yields no drop — without any
possibility of a crash — on an empty table, and whenever the scaled draw
`r` is zero (which covers both `u = 0` and a zero total weight, given the
spec's non-negative weights). -/
theorem c6_drop_resolution (p : Plant) (m : List (String × Plant)) (u : ℚ) :
    (get_drops p m u
      = (spec_first_drop (u * total_chance p) 0 p.drops).map (resolve_drop m)) ∧
    (p.drops = [] → get_drops p m u = none) ∧
    (u * total_chance p = 0 → (∀ d ∈ p.drops, 0 ≤ d.chance) →
      get_drops p m u = none) := by
  refine ⟨get_drops_loop_eq_spec m p.drops _ 0, ?_, ?_⟩
  · intro h
    simp [get_drops, h, get_drops_loop]
  · intro h0 hpos
    unfold get_drops
    rw [h0]
    exact get_drops_loop_none_of_le m p.drops 0 0 le_rfl hpos

/-- C6 witness: a zero draw over the Grass table resolves to no drop. -/
theorem c6_drop_resolution_witness :
    get_drops grass base_catalog 0 = none :=
  (c6_drop_resolution grass base_catalog 0).2.2 (zero_mul _) (by decide)

/-! ### The per-cell tick, characterized -/

/-- The effect of one `update_game` iteration on its own cell: a `New` or
`Permanent` occupant is aged, and expires when `age` reaches `max_age`. -/
def tickTile : Tile → Tile
  | Tile.Empty => Tile.Empty
  | Tile.New p =>
      if (age_plant p).max_age ≤ (age_plant p).age then Tile.Empty
      else Tile.Permanent (age_plant p)
  | Tile.Permanent p =>
      if (age_plant p).max_age ≤ (age_plant p).age then Tile.Empty
      else Tile.Permanent (age_plant p)

theorem tickIdx_empty (m : List (String × Plant)) (acc : TickAcc) (idx : Nat)
    (h : acc.tiles.getD idx Tile.Empty = Tile.Empty) :
    tickIdx m acc idx = acc := by
  simp only [tickIdx, h]

/-- Full characterization of one loop iteration whose cell holds a plant:
the occupant (whether just placed or already growing) is aged in place;
on maturity the score is bumped by `size * points_per_size`, one RNG draw
is consumed, the resolved drops are appended and the cell cleared. -/
theorem tickIdx_at (m : List (String × Plant)) (acc : TickAcc) (idx : Nat)
    (p₀ : Plant) (hlen : idx < acc.tiles.length)
    (h : acc.tiles.getD idx Tile.Empty = Tile.New p₀ ∨
      acc.tiles.getD idx Tile.Empty = Tile.Permanent p₀) :
    tickIdx m acc idx =
      if (age_plant p₀).max_age ≤ (age_plant p₀).age then
        { tiles := acc.tiles.set idx Tile.Empty,
          hand := acc.hand ++ ((get_drops (age_plant p₀) m (acc.us.headD 0)).getD []),
          points := acc.points + ((age_plant p₀).size : ℚ) * (age_plant p₀).points_per_size,
          us := acc.us.tail }
      else { acc with tiles := acc.tiles.set idx (Tile.Permanent (age_plant p₀)) } := by
  rcases h with h | h
  · simp only [tickIdx, h, getD_set_self _ _ _ _ hlen]
    split_ifs with hm
    · rw [List.set_set]
      rcases hd : get_drops (age_plant p₀) m (acc.us.headD 0) with _ | ds <;>
        simp [hd]
    · rw [List.set_set]
  · simp only [tickIdx, h]
    split_ifs with hm
    · rcases hd : get_drops (age_plant p₀) m (acc.us.headD 0) with _ | ds <;>
        simp [hd]
    · rfl

theorem tickIdx_tiles_getD (m : List (String × Plant)) (acc : TickAcc)
    (idx j : Nat) :
    (tickIdx m acc idx).tiles.getD j Tile.Empty =
      if j = idx then tickTile (acc.tiles.getD idx Tile.Empty)
      else acc.tiles.getD j Tile.Empty := by
  rcases h : acc.tiles.getD idx Tile.Empty with _ | p | p
  · rw [tickIdx_empty m acc idx h]
    rcases eq_or_ne j idx with rfl | hne
    · rw [if_pos rfl, h]; rfl
    · rw [if_neg hne]
  · have hlen := lt_length_of_getD_ne acc.tiles idx Tile.Empty
      (by rw [h]; simp)
    rw [tickIdx_at m acc idx p hlen (Or.inl h)]
    rcases eq_or_ne j idx with rfl | hne
    · rw [if_pos rfl]
      split_ifs with hm
      · show (acc.tiles.set j Tile.Empty).getD j Tile.Empty = _
        rw [getD_set_self _ _ _ _ hlen]
        simp [tickTile, hm]
      · show (acc.tiles.set j (Tile.Permanent (age_plant p))).getD j Tile.Empty = _
        rw [getD_set_self _ _ _ _ hlen]
        simp [tickTile, hm]
    · rw [if_neg hne]
      split_ifs with hm
      · show (acc.tiles.set idx Tile.Empty).getD j Tile.Empty = _
        exact getD_set_ne _ (Ne.symm hne) _ _
      · show (acc.tiles.set idx (Tile.Permanent (age_plant p))).getD j Tile.Empty = _
        exact getD_set_ne _ (Ne.symm hne) _ _
  · have hlen := lt_length_of_getD_ne acc.tiles idx Tile.Empty
      (by rw [h]; simp)
    rw [tickIdx_at m acc idx p hlen (Or.inr h)]
    rcases eq_or_ne j idx with rfl | hne
    · rw [if_pos rfl]
      split_ifs with hm
      · show (acc.tiles.set j Tile.Empty).getD j Tile.Empty = _
        rw [getD_set_self _ _ _ _ hlen]
        simp [tickTile, hm]
      · show (acc.tiles.set j (Tile.Permanent (age_plant p))).getD j Tile.Empty = _
        rw [getD_set_self _ _ _ _ hlen]
        simp [tickTile, hm]
    · rw [if_neg hne]
      split_ifs with hm
      · show (acc.tiles.set idx Tile.Empty).getD j Tile.Empty = _
        exact getD_set_ne _ (Ne.symm hne) _ _
      · show (acc.tiles.set idx (Tile.Permanent (age_plant p))).getD j Tile.Empty = _
        exact getD_set_ne _ (Ne.symm hne) _ _

/-- Pointwise effect of the whole cell loop: position `j < n` is ticked
exactly once (with its original contents), later positions untouched. -/
theorem foldl_tick_tiles_getD (m : List (String × Plant)) :
    ∀ (n : Nat) (acc : TickAcc) (j : Nat),
      ((List.range n).foldl (tickIdx m) acc).tiles.getD j Tile.Empty =
        if j < n then tickTile (acc.tiles.getD j Tile.Empty)
        else acc.tiles.getD j Tile.Empty := by
  intro n
  induction n with
  | zero => intro acc j; simp
  | succ n ih =>
      intro acc j
      rw [List.range_succ, List.foldl_append, List.foldl_cons, List.foldl_nil,
        tickIdx_tiles_getD]
      rcases eq_or_ne j n with rfl | hne
      · rw [if_pos rfl, ih acc j, if_neg (Nat.lt_irrefl j),
          if_pos (Nat.lt_succ_self j)]
      · rw [if_neg hne, ih acc j]
        by_cases hlt : j < n
        · rw [if_pos hlt, if_pos (Nat.lt_succ_of_lt hlt)]
        · rw [if_neg hlt, if_neg (by omega)]

/-! ### C1: no grace tick for JustPlaced cells -/

/-- C1 (amended): the very same `advance_round` call that sees a
`JustPlaced` (`Tile::New`) cell converts it to Growing AND ages it: `age`
is incremented and `size` grows by `size_per_turn` in that same tick (and
the cell expires immediately if the new age reaches `max_age`) — there is
no one-tick grace period. -/
theorem c1_justplaced_aged_same_tick (W H : Nat) (g : Game) (us : List ℚ)
    (idx : Nat) (p : Plant) (hn : idx < W * H)
    (ht : g.tile.getD idx Tile.Empty = Tile.New p) :
    (update_game W H g us).tile.getD idx Tile.Empty =
      if (age_plant p).max_age ≤ (age_plant p).age then Tile.Empty
      else Tile.Permanent (age_plant p) := by
  show ((List.range (W * H)).foldl (tickIdx g.name_to_plant)
      { tiles := g.tile, hand := g.hand, points := g.points,
        us := us }).tiles.getD idx Tile.Empty = _
  rw [foldl_tick_tiles_getD, if_pos hn]
  show tickTile (g.tile.getD idx Tile.Empty) = _
  rw [ht]
  rfl

/-- Concrete state: freshly placed Grass (age 0, size 0) on a 1×1 board. -/
def g_c1 : Game :=
  { state := State.NextRound, tile := [Tile.New grass], hand := [],
    all_plants := base_plants, name_to_plant := base_catalog,
    points := 0, round := 0, placing := ⟨0, 0⟩,
    choosing := { index := some 0, choice := none } }

/-- C1 counterexample: a freshly placed Grass (age 0) already has age 1
and size 1 after the very `advance_round` call that converts it to
Growing — its age and size are NOT left unchanged by that call. -/
theorem c1_no_grace_counterexample :
    (update_game 1 1 g_c1 []).tile.getD 0 Tile.Empty
      = Tile.Permanent { grass with age := 1, size := 1 } ∧
    ({ grass with age := 1, size := 1 } : Plant).age ≠ grass.age := by
  constructor
  · decide
  · decide

/-- C1 witness: the amended aging rule at the concrete freshly placed
Grass. -/
theorem c1_justplaced_aged_same_tick_witness :
    (update_game 1 1 g_c1 []).tile.getD 0 Tile.Empty =
      if (age_plant grass).max_age ≤ (age_plant grass).age then Tile.Empty
      else Tile.Permanent (age_plant grass) :=
  c1_justplaced_aged_same_tick 1 1 g_c1 [] 0 grass (by decide) (by decide)

/-! ### Single-occupied-cell boards -/

theorem foldl_tick_empties (m : List (String × Plant)) :
    ∀ (l : List Nat) (acc : TickAcc),
      (∀ j ∈ l, acc.tiles.getD j Tile.Empty = Tile.Empty) →
      l.foldl (tickIdx m) acc = acc
  | [], _, _ => rfl
  | j :: rest, acc, h => by
      rw [List.foldl_cons, tickIdx_empty m acc j (h j (by simp))]
      exact foldl_tick_empties m rest acc (fun k hk => h k (by simp [hk]))

/-- When every cell other than `i` is empty, the whole cell loop reduces
to the single iteration at `i`. -/
theorem foldl_tick_single (m : List (String × Plant)) (i : Nat) :
    ∀ (n : Nat) (acc : TickAcc),
      (∀ j, j ≠ i → acc.tiles.getD j Tile.Empty = Tile.Empty) → i < n →
      (List.range n).foldl (tickIdx m) acc = tickIdx m acc i := by
  intro n
  induction n with
  | zero => intro acc h hi; exact absurd hi (Nat.not_lt_zero i)
  | succ n ih =>
      intro acc h hi
      rw [List.range_succ, List.foldl_append, List.foldl_cons, List.foldl_nil]
      rcases eq_or_ne i n with rfl | hne
      · rw [foldl_tick_empties m _ acc
          (fun j hj => h j (by simp [List.mem_range] at hj; omega))]
      · have hi' : i < n := by omega
        rw [ih acc h hi']
        apply tickIdx_empty
        rw [tickIdx_tiles_getD, if_neg (Ne.symm hne)]
        exact h n (Ne.symm hne)

/-- The plant `p` as it looks after `k` aging ticks from a fresh copy. -/
def aged (p : Plant) (k : Nat) : Plant :=
  { p with age := k, size := k * p.size_per_turn }

theorem aged_zero (p : Plant) (h0 : p.age = 0) (hs : p.size = 0) :
    aged p 0 = p := by
  cases p
  simp_all [aged]

theorem age_plant_aged (p : Plant) (k : Nat) (h1 : k + 1 ≤ p.max_age)
    (hMb : p.max_age < u32Mod) (hSb : p.max_age * p.size_per_turn < u32Mod) :
    age_plant (aged p k) = aged p (k + 1) := by
  have ha : (k + 1) % u32Mod = k + 1 :=
    Nat.mod_eq_of_lt (lt_of_le_of_lt h1 hMb)
  have hs : (k * p.size_per_turn + p.size_per_turn) % u32Mod
      = (k + 1) * p.size_per_turn := by
    rw [← Nat.succ_mul]
    exact Nat.mod_eq_of_lt (lt_of_le_of_lt (Nat.mul_le_mul_right _ h1) hSb)
  simp [age_plant, aged, ha, hs]

/-- One round advance of a board whose only occupant sits at linear index
`i`: the occupant ages (maturing with the score/drop/clear effects) and
every other component of the game follows the single cell's fate. -/
theorem update_game_single (W H i : Nat) (p₀ : Plant) (t : Tile) (g : Game)
    (us : List ℚ) (hi : i < W * H)
    (hT : t = Tile.New p₀ ∨ t = Tile.Permanent p₀)
    (ht : g.tile = (List.replicate (W * H) Tile.Empty).set i t) :
    update_game W H g us =
      if (age_plant p₀).max_age ≤ (age_plant p₀).age then
        { g with tile := List.replicate (W * H) Tile.Empty,
                 hand := g.hand ++
                   ((get_drops (age_plant p₀) g.name_to_plant (us.headD 0)).getD []),
                 points := g.points +
                   ((age_plant p₀).size : ℚ) * (age_plant p₀).points_per_size,
                 round := (g.round + 1) % u32Mod }
      else
        { g with tile := (List.replicate (W * H) Tile.Empty).set i
                   (Tile.Permanent (age_plant p₀)),
                 round := (g.round + 1) % u32Mod } := by
  have hrep : ∀ j, j ≠ i →
      (({ tiles := g.tile, hand := g.hand, points := g.points,
          us := us } : TickAcc)).tiles.getD j Tile.Empty = Tile.Empty := by
    intro j hj
    show g.tile.getD j Tile.Empty = Tile.Empty
    rw [ht, getD_set_ne _ (Ne.symm hj), getD_replicate]
  have hlen : i < g.tile.length := by
    rw [ht]
    simpa using hi
  have hacc : g.tile.getD i Tile.Empty = t := by
    rw [ht]
    exact getD_set_self _ _ _ _ (by simpa using hi)
  show { g with
      tile := ((List.range (W * H)).foldl (tickIdx g.name_to_plant)
        { tiles := g.tile, hand := g.hand, points := g.points, us := us }).tiles,
      hand := ((List.range (W * H)).foldl (tickIdx g.name_to_plant)
        { tiles := g.tile, hand := g.hand, points := g.points, us := us }).hand,
      points := ((List.range (W * H)).foldl (tickIdx g.name_to_plant)
        { tiles := g.tile, hand := g.hand, points := g.points, us := us }).points,
      round := (g.round + 1) % u32Mod } = _
  rw [foldl_tick_single g.name_to_plant i (W * H) _ hrep hi]
  rw [tickIdx_at g.name_to_plant _ i p₀ (by simpa using hlen)
    (by show g.tile.getD i Tile.Empty = _ ∨ g.tile.getD i Tile.Empty = _
        rw [hacc]
        exact hT)]
  split_ifs with hm
  · show ({ g with
      tile := g.tile.set i Tile.Empty,
      hand := g.hand ++ ((get_drops (age_plant p₀) g.name_to_plant (us.headD 0)).getD []),
      points := g.points + ((age_plant p₀).size : ℚ) * (age_plant p₀).points_per_size,
      round := (g.round + 1) % u32Mod } : Game) = _
    rw [ht, List.set_set, List.set_replicate_self]
  · show ({ g with
      tile := g.tile.set i (Tile.Permanent (age_plant p₀)),
      round := (g.round + 1) % u32Mod } : Game) = _
    rw [ht, List.set_set]

/-- Induction workhorse for C4: starting from the single occupant after
`k` ticks, the remaining `max_age - k` round advances clear the board and
add exactly `max_age * size_per_turn * points_per_size` to the score. -/
theorem apply_rounds_single (W H i : Nat) (p : Plant) (hi : i < W * H)
    (hMb : p.max_age < u32Mod) (hSb : p.max_age * p.size_per_turn < u32Mod) :
    ∀ (uss : List (List ℚ)) (k : Nat) (t : Tile) (g : Game),
      k < p.max_age → uss.length = p.max_age - k →
      (t = Tile.New (aged p k) ∨ t = Tile.Permanent (aged p k)) →
      g.tile = (List.replicate (W * H) Tile.Empty).set i t →
      (apply_rounds W H g uss).tile = List.replicate (W * H) Tile.Empty ∧
      (apply_rounds W H g uss).points
        = g.points + ((p.max_age * p.size_per_turn : ℕ) : ℚ) * p.points_per_size := by
  intro uss
  induction uss with
  | nil =>
      intro k t g hk hlen hT ht
      simp at hlen
      omega
  | cons u rest ih =>
      intro k t g hk hlen hT ht
      have hstep := update_game_single W H i (aged p k) t g u hi hT ht
      rw [age_plant_aged p k (Nat.succ_le_of_lt hk) hMb hSb] at hstep
      show (apply_rounds W H (update_game W H g u) rest).tile = _ ∧
        (apply_rounds W H (update_game W H g u) rest).points = _
      by_cases hm : p.max_age ≤ k + 1
      · have hk1 : k + 1 = p.max_age := le_antisymm (Nat.succ_le_of_lt hk) hm
        have hrest : rest = [] := by
          have : rest.length = 0 := by
            simp at hlen
            omega
          exact List.length_eq_zero.mp this
        subst hrest
        rw [if_pos (show (aged p (k + 1)).max_age ≤ (aged p (k + 1)).age from hm)]
          at hstep
        rw [hstep]
        refine ⟨rfl, ?_⟩
        show g.points + ((aged p (k + 1)).size : ℚ) * (aged p (k + 1)).points_per_size
          = g.points + ((p.max_age * p.size_per_turn : ℕ) : ℚ) * p.points_per_size
        rw [show (aged p (k + 1)).size = (k + 1) * p.size_per_turn from rfl, hk1]
        rfl
      · have hk1 : k + 1 < p.max_age := not_le.mp hm
        rw [if_neg (show ¬ (aged p (k + 1)).max_age ≤ (aged p (k + 1)).age from hm)]
          at hstep
        rw [hstep]
        have hres := ih (k + 1) (Tile.Permanent (aged p (k + 1)))
          ({ g with
              tile := (List.replicate (W * H) Tile.Empty).set i
                (Tile.Permanent (aged p (k + 1))),
              round := (g.round + 1) % u32Mod })
          hk1 (by simp at hlen ⊢; omega) (Or.inr rfl) rfl
        exact ⟨hres.1, hres.2.trans rfl⟩

/-! ### C4: maturity after exactly max_age ticks -/

/-- C4 (amended): a fresh plant (age 0, size 0) with `max_age = M` placed
alone on the board is aged by every one of the next `M` round advances —
the first tick already ages it, there is no grace tick — and after
exactly `M` ticks the cell is Empty and the score has grown by exactly
`M * size_per_turn * points_per_size`.  The `u32` bounds keep the wrapped
counters away from overflow. -/
theorem c4_maturity_after_max_age_ticks (W H i : Nat) (p : Plant) (g0 : Game)
    (uss : List (List ℚ)) (hi : i < W * H)
    (hage : p.age = 0) (hsize : p.size = 0) (hM : 0 < p.max_age)
    (hMb : p.max_age < u32Mod) (hSb : p.max_age * p.size_per_turn < u32Mod)
    (ht : g0.tile = (List.replicate (W * H) Tile.Empty).set i (Tile.New p))
    (hlen : uss.length = p.max_age) :
    (apply_rounds W H g0 uss).tile = List.replicate (W * H) Tile.Empty ∧
    (apply_rounds W H g0 uss).points
      = g0.points + ((p.max_age * p.size_per_turn : ℕ) : ℚ) * p.points_per_size := by
  have h0 : Tile.New p = Tile.New (aged p 0) := by
    rw [aged_zero p hage hsize]
  exact apply_rounds_single W H i p hi hMb hSb uss 0 (Tile.New p) g0 hM
    (by omega) (Or.inl h0) ht

/-- Concrete state: freshly placed Tall Grass (max_age 4) on a 1×1 board. -/
def g_c4 : Game :=
  { state := State.NextRound, tile := [Tile.New tall_grass], hand := [],
    all_plants := base_plants, name_to_plant := base_catalog,
    points := 0, round := 0, placing := ⟨0, 0⟩,
    choosing := { index := some 0, choice := none } }

/-- C4 counterexample (to the claimed tick accounting): there is no grace
tick — the first `advance_round` after placement already leaves the
instance with age 1, not an unaged Growing instance, so the claimed
"one grace tick plus M growth ticks" decomposition of the M ticks is
false on the code. -/
theorem c4_first_tick_ages_counterexample :
    (update_game 1 1 g_c4 []).tile.getD 0 Tile.Empty
      = Tile.Permanent { tall_grass with age := 1, size := 1 } ∧
    (update_game 1 1 g_c4 []).tile.getD 0 Tile.Empty
      ≠ Tile.Permanent tall_grass := by
  constructor
  · decide
  · decide

/-- C4 witness: four draws-lists expire the Tall Grass and pay 4 points. -/
theorem c4_maturity_after_max_age_ticks_witness :
    (apply_rounds 1 1 g_c4 [[], [], [], []]).tile
      = List.replicate (1 * 1) Tile.Empty ∧
    (apply_rounds 1 1 g_c4 [[], [], [], []]).points
      = g_c4.points + ((tall_grass.max_age * tall_grass.size_per_turn : ℕ) : ℚ)
          * tall_grass.points_per_size :=
  c4_maturity_after_max_age_ticks 1 1 0 tall_grass g_c4 [[], [], [], []]
    (by decide) rfl rfl (by decide) (by decide) (by decide) rfl rfl

/-! ### C10: the hand-selection index stays in bounds -/

theorem tickIdx_hand (m : List (String × Plant)) (acc : TickAcc) (i : Nat) :
    ∃ t, (tickIdx m acc i).hand = acc.hand ++ t := by
  rcases h : acc.tiles.getD i Tile.Empty with _ | p | p
  · exact ⟨[], by rw [tickIdx_empty m acc i h]; simp⟩
  · have hlen := lt_length_of_getD_ne acc.tiles i Tile.Empty (by rw [h]; simp)
    rw [tickIdx_at m acc i p hlen (Or.inl h)]
    split_ifs with hm
    · exact ⟨_, rfl⟩
    · exact ⟨[], by simp⟩
  · have hlen := lt_length_of_getD_ne acc.tiles i Tile.Empty (by rw [h]; simp)
    rw [tickIdx_at m acc i p hlen (Or.inr h)]
    split_ifs with hm
    · exact ⟨_, rfl⟩
    · exact ⟨[], by simp⟩

theorem foldl_tick_hand (m : List (String × Plant)) :
    ∀ (l : List Nat) (acc : TickAcc),
      ∃ t, (l.foldl (tickIdx m) acc).hand = acc.hand ++ t
  | [], acc => ⟨[], by simp⟩
  | i :: rest, acc => by
      rw [List.foldl_cons]
      obtain ⟨t0, h0⟩ := tickIdx_hand m acc i
      obtain ⟨t1, h1⟩ := foldl_tick_hand m rest (tickIdx m acc i)
      exact ⟨t0 ++ t1, by rw [h1, h0, List.append_assoc]⟩

/-- A round advance only ever appends to the hand (maturity drops). -/
theorem update_game_hand (W H : Nat) (g : Game) (us : List ℚ) :
    ∃ t, (update_game W H g us).hand = g.hand ++ t := by
  obtain ⟨t, h⟩ := foldl_tick_hand g.name_to_plant (List.range (W * H))
    { tiles := g.tile, hand := g.hand, points := g.points, us := us }
  exact ⟨t, h⟩

/-- The selection-index invariant: the index is always `Some`, pointing
inside the hand when the hand is non-empty, and pinned at 0 when empty. -/
def Inv (g : Game) : Prop :=
  ∃ i, g.choosing.index = some i ∧ (g.hand = [] → i = 0) ∧
    (g.hand ≠ [] → i < g.hand.length)

theorem inv_update_game (W H : Nat) (g : Game) (us : List ℚ)
    (h : Inv g) : Inv (update_game W H g us) := by
  obtain ⟨i, hidx, hemp, hne⟩ := h
  obtain ⟨t, hh⟩ := update_game_hand W H g us
  refine ⟨i, hidx, ?_, ?_⟩
  · intro h0
    rw [hh] at h0
    exact hemp (List.append_eq_nil.mp h0).1
  · intro hne'
    rw [hh, List.length_append]
    rcases eq_or_ne g.hand [] with he | hgne
    · have hi0 := hemp he
      subst hi0
      rw [hh, he] at hne'
      simp only [List.nil_append] at hne'
      have := List.length_pos.mpr hne'
      simp [he]
      omega
    · have := hne hgne
      omega

theorem inv_init (W H : Nat) : Inv (Game.empty W H) :=
  ⟨0, rfl, fun _ => rfl, fun _ => by simp [Game.empty]⟩

theorem inv_dispatch (W H : Nat) (g : Game) (c : Cmd) (h : Inv g) :
    Inv (dispatch W H g c) := by
  obtain ⟨i, hidx, hemp, hne⟩ := h
  cases c with
  | tab =>
      unfold dispatch on_tab
      cases g.state <;> exact ⟨i, hidx, hemp, hne⟩
  | enter us => exact inv_update_game W H g us ⟨i, hidx, hemp, hne⟩
  | keyDown =>
      unfold dispatch
      cases hst : g.state
      case Choosing =>
        by_cases h0 : g.hand.length = 0
        · refine ⟨i, ?_, hemp, hne⟩
          show (g.choosing.on_down g.hand.length).index = some i
          simp [ChoosingState.on_down, h0, hidx]
        · refine ⟨(i + 1) % g.hand.length, ?_, ?_, ?_⟩
          · show (g.choosing.on_down g.hand.length).index = _
            simp [ChoosingState.on_down, h0, hidx]
          · intro hc
            exact absurd (congrArg List.length hc) (by simpa using h0)
          · intro _
            exact Nat.mod_lt _ (Nat.pos_of_ne_zero h0)
      case Placing => exact ⟨i, hidx, hemp, hne⟩
      case NextRound => exact ⟨i, hidx, hemp, hne⟩
  | keyUp =>
      unfold dispatch
      cases hst : g.state
      case Choosing =>
        by_cases h0 : g.hand.length = 0
        · refine ⟨i, ?_, hemp, hne⟩
          show (g.choosing.on_up g.hand.length).index = some i
          simp [ChoosingState.on_up, h0, hidx]
        · refine ⟨(((i : Int) - 1) % (g.hand.length : Int)).toNat, ?_, ?_, ?_⟩
          · show (g.choosing.on_up g.hand.length).index = _
            simp [ChoosingState.on_up, h0, hidx]
          · intro hc
            exact absurd (congrArg List.length hc) (by simpa using h0)
          · intro _
            rw [emod_sub_one_toNat i g.hand.length (Nat.pos_of_ne_zero h0)]
            exact Nat.mod_lt _ (Nat.pos_of_ne_zero h0)
      case Placing => exact ⟨i, hidx, hemp, hne⟩
      case NextRound => exact ⟨i, hidx, hemp, hne⟩
  | keyLeft =>
      unfold dispatch
      cases g.state <;> exact ⟨i, hidx, hemp, hne⟩
  | keyRight =>
      unfold dispatch
      cases g.state <;> exact ⟨i, hidx, hemp, hne⟩
  | charW =>
      unfold dispatch
      cases g.state <;> exact ⟨i, hidx, hemp, hne⟩
  | charS =>
      unfold dispatch
      cases g.state <;> exact ⟨i, hidx, hemp, hne⟩
  | charA =>
      unfold dispatch
      cases g.state <;> exact ⟨i, hidx, hemp, hne⟩
  | charD =>
      unfold dispatch
      cases g.state <;> exact ⟨i, hidx, hemp, hne⟩
  | space us =>
      show Inv (on_space W H g us)
      unfold on_space
      by_cases h0 : g.hand.length = 0
      · simp only [if_pos h0]
        exact ⟨i, hidx, hemp, hne⟩
      · simp only [if_neg h0]
        have hgne : g.hand ≠ [] := fun hc => h0 (by rw [hc]; rfl)
        cases hst : g.state
        · exact ⟨i, hidx, hemp, hne⟩
        · by_cases hcp : can_place_plant W g g.placing.x g.placing.y = true
          · simp only [if_pos hcp]
            cases hch : g.choosing.choice
            · exact ⟨i, hidx, hemp, hne⟩
            · simp only [hidx]
              have hlen : i < g.hand.length := hne hgne
              have hlc : (g.hand.eraseIdx i).length = g.hand.length - 1 := by
                rw [List.length_eraseIdx]
                simp [hlen]
              refine ⟨if 0 < i then i - 1 else i, rfl, ?_, ?_⟩
              · intro hc
                have hc' : g.hand.eraseIdx i = [] := hc
                rw [hc'] at hlc
                simp at hlc
                have hi0 : i = 0 := by omega
                simp [hi0]
              · intro hnect
                have hnect' : g.hand.eraseIdx i ≠ [] := hnect
                show (if 0 < i then i - 1 else i) < (g.hand.eraseIdx i).length
                have hlpos := List.length_pos.mpr hnect'
                rw [hlc] at hlpos ⊢
                split_ifs with hi0 <;> omega
          · simp only [if_neg hcp]
            exact ⟨i, hidx, hemp, hne⟩
        · exact inv_update_game W H g us ⟨i, hidx, hemp, hne⟩
  | del =>
      unfold dispatch
      cases hst : g.state
      case Choosing => exact ⟨i, hidx, hemp, hne⟩
      case NextRound => exact ⟨i, hidx, hemp, hne⟩
      case Placing =>
        show Inv (on_delete W g)
        rcases hdt : g.tile.getD (xy_idx W g.placing.x g.placing.y) Tile.Empty
          with _ | p | p <;> simp only [on_delete, hdt]
        · exact ⟨i, hidx, hemp, hne⟩
        · refine ⟨i, hidx, ?_, ?_⟩
          · intro hc
            exact absurd hc (by simp)
          · intro _
            have hlp : (g.hand ++ [p]).length = g.hand.length + 1 := by simp
            show i < (g.hand ++ [p]).length
            rw [hlp]
            rcases eq_or_ne g.hand [] with he | hh
            · have hi0 := hemp he
              omega
            · have hlt := hne hh
              omega
        · exact ⟨i, hidx, hemp, hne⟩

/-- C10: in every reachable session state with a non-empty hand, the
selection index is `Some i` with `i` strictly inside the hand, so
`selected_plant` and the Confirm path never index out of bounds, under
every command sequence. -/
theorem c10_selection_in_bounds (W H : Nat) (g : Game)
    (hreach : Reachable W H g) (hne : g.hand ≠ []) :
    ∃ i, g.choosing.index = some i ∧ i < g.hand.length := by
  have hInv : Inv g := by
    clear hne
    induction hreach with
    | init => exact inv_init W H
    | step c hr ih => exact inv_dispatch W H _ c ih
  obtain ⟨i, hidx, _, hlt⟩ := hInv
  exact ⟨i, hidx, hlt hne⟩

/-- C10 witness: the invariant at the initial 2×2 session. -/
theorem c10_selection_in_bounds_witness :
    ∃ i, (Game.empty 2 2).choosing.index = some i ∧
      i < (Game.empty 2 2).hand.length :=
  c10_selection_in_bounds 2 2 (Game.empty 2 2) Reachable.init (by decide)

end RogueForest
